import Mathlib

/-!
Verification of the `todo-cli` task tracker (`src/main.go`).

Modelling conventions (shallow embedding):
* Go `int64` ids are modelled as `Int`; the program never exercises
  overflow (ids grow by one per add), so no `% 2^64` wrapping is needed.
* `time.Time` values are modelled by their serialized RFC3339 string
  (the only observable form they take in this program); `*time.Time`
  becomes `Option String`.
* The JSON bytes written by `json.MarshalIndent` / read by
  `json.Unmarshal` are modelled at the granularity of a JSON document
  tree (`Json` below): `MarshalIndent` is a deterministic injective
  printer of that tree, so equality of documents coincides with
  equality of the produced bytes.  A concrete textual parser
  (`parseJson`) additionally models `json.Unmarshal`'s rejection of
  malformed raw content (empty files, garbage bytes).
* The pure core of each command (`cmdAdd`, `cmdDo`, `cmdEdit`,
  `cmdRemove`) is embedded as a function of the loaded collection;
  the surrounding load/save plumbing is modelled explicitly where a
  claim refers to it (`loadTasks`, `runEditDoc`).
* Known loosenings of the byte/number layer, none exercised by the
  theorems below: `decodeTask` does not re-validate the RFC3339 shape
  of time strings (Go's `time.Time.UnmarshalJSON` does),
  `decodeIntField` omits the int64 range check, and `parseValue`
  covers integer numerals only.  Every concrete document appearing in
  a theorem uses values on which the model and `encoding/json` agree.
* `nextID` keeps Go's `max + 1` unbounded; `nextID64` below is the
  exact int64 form with the wrap on overflow made explicit
  (`nextID64 ts = wrap64 (nextID ts)`), and the theorems about id
  assignment at the int64 boundary are stated through it.
-/

namespace TodoCli

/-- Go struct `Task` (main.go:15-21).  `CreatedAt`/`CompletedAt` hold the
RFC3339 string representation of the Go `time.Time`. -/
structure Task where
  ID : Int
  Title : String
  Done : Bool
  CreatedAt : String
  CompletedAt : Option String
deriving Repr, DecidableEq

/-- Go `type Tasks []Task` (main.go:23). -/
abbrev Tasks := List Task

/-- `nextID` (main.go:86-94): `var max int64` starts at 0, is raised to
any strictly larger id, and the result is `max + 1`.  The sum is kept
unbounded here; it agrees with Go's int64 whenever the running maximum
is below `int64Max`.  `nextID64` is the exact wrapping form. -/
def nextID (ts : Tasks) : Int :=
  (ts.foldl (fun m t => if m < t.ID then t.ID else m) 0) + 1

/-- Smallest int64 value. -/
def int64Min : Int := -9223372036854775808

/-- Largest int64 value. -/
def int64Max : Int := 9223372036854775807

/-- Two's-complement wrap-around of an integer into the int64 range. -/
def wrap64 (n : Int) : Int :=
  (n + 9223372036854775808) % 18446744073709551616 - 9223372036854775808

/-- `nextID` (main.go:86-94) at full int64 precision: the comparisons
never overflow (every stored id is an int64 value), but Go's final
`max + 1` wraps when `max = int64Max`; `wrap64` makes that explicit. -/
def nextID64 (ts : Tasks) : Int :=
  wrap64 ((ts.foldl (fun m t => if m < t.ID then t.ID else m) 0) + 1)

/-- `findIndexByID` (main.go:96-103): index of the first task with the
given id; the Go sentinel `-1` is modelled as `none`. -/
def findIndexByID : Tasks → Int → Option Nat
  | [], _ => none
  | t :: ts, id =>
      if t.ID = id then some 0
      else (findIndexByID ts id).map (· + 1)

/-- `strings.Join args " "` (main.go:110). -/
def joinSpace : List String → String
  | [] => ""
  | [s] => s
  | s :: rest => s ++ " " ++ joinSpace rest

/-- The successful path of `cmdAdd` (main.go:115-117): assign
`nextID`, append the new task, report the assigned id. -/
def addTask (ts : Tasks) (title : String) (now : String) : Tasks × Int :=
  let id := nextID ts
  (ts ++ [{ ID := id, Title := title, Done := false,
            CreatedAt := now, CompletedAt := none }], id)

/-- Pure core of `cmdAdd` (main.go:105-123): the argument check, the
joined title, the assigned id and the appended task.  Returns the new
collection and the assigned id; `Except.error` models the Go error
return (in which case `saveTasks` is never reached). -/
def cmdAdd (args : List String) (ts : Tasks) (now : String) :
    Except String (Tasks × Int) :=
  if args = [] then .error "usage: todo add <task title>"
  else .ok (addTask ts (joinSpace args) now)

/-- Outcome of `cmdDo` distinguishing the three paths of
main.go:161-176: id absent (error), already done (prints
"Already completed." and does NOT save), or freshly marked (saves). -/
inductive DoOutcome where
  | notFound
  | alreadyDone
  | marked
deriving Repr, DecidableEq

/-- Pure core of `cmdDo` (main.go:148-177): looks up the id, leaves the
collection untouched when absent or already done, otherwise sets
`Done := true` and stamps `CompletedAt := now`. -/
def cmdDo (ts : Tasks) (id : Int) (now : String) : Tasks × DoOutcome :=
  match findIndexByID ts id with
  | none => (ts, .notFound)
  | some i =>
      match ts[i]? with
      | none => (ts, .notFound)  -- unreachable: findIndexByID yields in-bounds indices
      | some t =>
          if t.Done then (ts, .alreadyDone)
          else (ts.set i { t with Done := true, CompletedAt := some now }, .marked)

/-- Pure core of `cmdRemove` (main.go:179-202): `ts = append(ts[:i], ts[i+1:]...)`
removes the first task with the given id; error when absent. -/
def cmdRemove (ts : Tasks) (id : Int) : Except String Tasks :=
  match findIndexByID ts id with
  | none => .error ("task " ++ toString id ++ " not found")
  | some i => .ok (ts.eraseIdx i)

/-- Pure core of `cmdEdit` (main.go:204-228): replaces the title of the
first task with the given id; error (and no save) when absent. -/
def cmdEdit (ts : Tasks) (id : Int) (newTitle : String) : Except String Tasks :=
  match findIndexByID ts id with
  | none => .error ("task " ++ toString id ++ " not found")
  | some i =>
      match ts[i]? with
      | none => .error ("task " ++ toString id ++ " not found")
      | some t => .ok (ts.set i { t with Title := newTitle })

/-! ## JSON layer

The storage format (spec §6): a JSON array of task objects.  `Json` is
the document tree; `json.MarshalIndent` is a deterministic injective
printer of such trees, so equality of `Json` documents models equality
of the serialized bytes. -/

/-- JSON document tree.  Numbers are restricted to integers, which is
all this program ever writes (`id` is the only numeric field). -/
inductive Json where
  | null
  | bool (b : Bool)
  | num (n : Int)
  | str (s : String)
  | arr (elems : List Json)
  | obj (fields : List (String × Json))
deriving Repr

/-- `json.Marshal` of one `Task` (struct tags, main.go:15-21): fields in
struct order; `completed_at` carries `omitempty` on a pointer, so it is
omitted exactly when the pointer is nil. -/
def encodeTask (t : Task) : Json :=
  Json.obj ([("id", Json.num t.ID), ("title", Json.str t.Title),
             ("done", Json.bool t.Done), ("created_at", Json.str t.CreatedAt)] ++
            (match t.CompletedAt with
             | none => []
             | some c => [("completed_at", Json.str c)]))

/-- `json.Marshal` of a `Tasks` slice: the array of encoded tasks. -/
def encodeTasks (ts : Tasks) : Json :=
  Json.arr (ts.map encodeTask)

/-- Field lookup used by `json.Unmarshal` when filling a struct.
(Go resolves duplicate keys last-wins and falls back to case-insensitive
matching; neither arises for the documents this program writes.) -/
def lookupField : List (String × Json) → String → Option Json
  | [], _ => none
  | (k, v) :: fs, name => if k = name then some v else lookupField fs name

/-- Unmarshal a JSON value into an `int64` field: a missing field or a
JSON `null` leaves the zero value; a non-number is a type error. -/
def decodeIntField : Option Json → Option Int
  | none => some 0
  | some Json.null => some 0
  | some (Json.num n) => some n
  | some _ => none

/-- Unmarshal into a `string`-backed field (`title`, and the `time.Time`
`created_at`, modelled by its RFC3339 string). -/
def decodeStrField : Option Json → Option String
  | none => some ""
  | some Json.null => some ""
  | some (Json.str s) => some s
  | some _ => none

/-- Unmarshal into a `bool` field. -/
def decodeBoolField : Option Json → Option Bool
  | none => some false
  | some Json.null => some false
  | some (Json.bool b) => some b
  | some _ => none

/-- Unmarshal into the `*time.Time` field `completed_at`: missing or
`null` leaves the nil pointer. -/
def decodeOptStrField : Option Json → Option (Option String)
  | none => some none
  | some Json.null => some none
  | some (Json.str s) => some (some s)
  | some _ => none

/-- `json.Unmarshal` of one array element into a `Task`: an object fills
the struct field by field (missing fields keep zero values, unknown
fields are ignored); `null` is ignored, leaving the zero `Task`; any
other shape is a type error that fails the whole unmarshal. -/
def decodeTask : Json → Option Task
  | Json.null =>
      some { ID := 0, Title := "", Done := false, CreatedAt := "", CompletedAt := none }
  | Json.obj fs => do
      let id ← decodeIntField (lookupField fs "id")
      let title ← decodeStrField (lookupField fs "title")
      let doneFlag ← decodeBoolField (lookupField fs "done")
      let created ← decodeStrField (lookupField fs "created_at")
      let completed ← decodeOptStrField (lookupField fs "completed_at")
      some { ID := id, Title := title, Done := doneFlag,
             CreatedAt := created, CompletedAt := completed }
  | _ => none

/-- Decode the array elements in order; any element error fails the
whole unmarshal. -/
def decodeTaskList : List Json → Option Tasks
  | [] => some []
  | e :: es => do
      let t ← decodeTask e
      let ts ← decodeTaskList es
      some (t :: ts)

/-- `json.Unmarshal` of the whole document into `Tasks` (main.go:56-57):
the top level must be an array (or `null`, giving the nil slice); each
element is decoded in order.  No invariant (id uniqueness, positivity)
is checked. -/
def decodeTasks : Json → Option Tasks
  | Json.null => some []
  | Json.arr elems => decodeTaskList elems
  | _ => none

/-! ## Raw-byte layer

A concrete JSON text parser modelling the lexical side of
`json.Unmarshal`: it rejects empty input, garbage bytes and trailing
data, as Go does.  Recursion over nested values is bounded by a fuel
argument; `parseJson` supplies `length + 1`, which suffices because
every value and every separator consumes at least one character. -/

/-- Skip JSON whitespace. -/
def skipWs : List Char → List Char
  | [] => []
  | c :: cs =>
      if c = ' ' ∨ c = '\t' ∨ c = '\n' ∨ c = '\r' then skipWs cs else c :: cs

/-- Hexadecimal digit value, for `\u` escapes. -/
def hexVal? (c : Char) : Option Nat :=
  if '0' ≤ c ∧ c ≤ '9' then some (c.toNat - '0'.toNat)
  else if 'a' ≤ c ∧ c ≤ 'f' then some (c.toNat - 'a'.toNat + 10)
  else if 'A' ≤ c ∧ c ≤ 'F' then some (c.toNat - 'A'.toNat + 10)
  else none

/-- Body of a JSON string literal (after the opening quote), with the
standard escapes.  (`\u` surrogate pairs are not combined; the program
itself never writes them.) -/
def parseStringBody (acc : List Char) : List Char → Option (String × List Char)
  | [] => none
  | c :: cs =>
      if c = '\"' then some (String.mk acc.reverse, cs)
      else if c = '\\' then
        match cs with
        | [] => none
        | e :: cs2 =>
            if e = '\"' then parseStringBody ('\"' :: acc) cs2
            else if e = '\\' then parseStringBody ('\\' :: acc) cs2
            else if e = '/' then parseStringBody ('/' :: acc) cs2
            else if e = 'n' then parseStringBody ('\n' :: acc) cs2
            else if e = 't' then parseStringBody ('\t' :: acc) cs2
            else if e = 'r' then parseStringBody ('\r' :: acc) cs2
            else if e = 'b' then parseStringBody (Char.ofNat 8 :: acc) cs2
            else if e = 'f' then parseStringBody (Char.ofNat 12 :: acc) cs2
            else if e = 'u' then
              match cs2 with
              | h1 :: h2 :: h3 :: h4 :: rest =>
                  match hexVal? h1, hexVal? h2, hexVal? h3, hexVal? h4 with
                  | some a, some b, some c2, some d =>
                      parseStringBody (Char.ofNat (((a * 16 + b) * 16 + c2) * 16 + d) :: acc) rest
                  | _, _, _, _ => none
              | _ => none
            else none
      else parseStringBody (c :: acc) cs

/-- Consume a run of decimal digits, accumulating their value. -/
def parseDigits (acc : Nat) : List Char → Nat × List Char
  | [] => (acc, [])
  | c :: cs =>
      if '0' ≤ c ∧ c ≤ '9' then parseDigits (acc * 10 + (c.toNat - '0'.toNat)) cs
      else (acc, c :: cs)

mutual

/-- Parse one JSON value (fuel-bounded). -/
def parseValue : Nat → List Char → Option (Json × List Char)
  | 0, _ => none
  | fuel + 1, input =>
      match skipWs input with
      | [] => none
      | c :: cs =>
          if c = 'n' then
            match cs with
            | 'u' :: 'l' :: 'l' :: rest => some (Json.null, rest)
            | _ => none
          else if c = 't' then
            match cs with
            | 'r' :: 'u' :: 'e' :: rest => some (Json.bool true, rest)
            | _ => none
          else if c = 'f' then
            match cs with
            | 'a' :: 'l' :: 's' :: 'e' :: rest => some (Json.bool false, rest)
            | _ => none
          else if c = '\"' then
            match parseStringBody [] cs with
            | some (s, rest) => some (Json.str s, rest)
            | none => none
          else if c = '-' then
            match cs with
            | d :: _ =>
                if '0' ≤ d ∧ d ≤ '9' then
                  let (n, rest) := parseDigits 0 cs
                  some (Json.num (-(n : Int)), rest)
                else none
            | [] => none
          else if '0' ≤ c ∧ c ≤ '9' then
            let (n, rest) := parseDigits 0 (c :: cs)
            some (Json.num (n : Int), rest)
          else if c = '[' then
            match skipWs cs with
            | ']' :: rest => some (Json.arr [], rest)
            | cs2 => parseElems fuel cs2 []
          else if c = '\x7b' then
            match skipWs cs with
            | '\x7d' :: rest => some (Json.obj [], rest)
            | cs2 => parseMembers fuel cs2 []
          else none

/-- Parse the remaining elements of a non-empty array. -/
def parseElems : Nat → List Char → List Json → Option (Json × List Char)
  | 0, _, _ => none
  | fuel + 1, input, acc =>
      match parseValue fuel input with
      | none => none
      | some (v, rest) =>
          match skipWs rest with
          | ',' :: rest2 => parseElems fuel rest2 (v :: acc)
          | ']' :: rest2 => some (Json.arr (v :: acc).reverse, rest2)
          | _ => none

/-- Parse the remaining members of a non-empty object. -/
def parseMembers : Nat → List Char → List (String × Json) →
    Option (Json × List Char)
  | 0, _, _ => none
  | fuel + 1, input, acc =>
      match skipWs input with
      | '\"' :: cs =>
          match parseStringBody [] cs with
          | none => none
          | some (k, rest) =>
              match skipWs rest with
              | ':' :: rest2 =>
                  match parseValue fuel rest2 with
                  | none => none
                  | some (v, rest3) =>
                      match skipWs rest3 with
                      | ',' :: rest4 => parseMembers fuel rest4 ((k, v) :: acc)
                      | '\x7d' :: rest4 => some (Json.obj ((k, v) :: acc).reverse, rest4)
                      | _ => none
              | _ => none
      | _ => none

end

/-- Parse a whole document: one value, then only whitespace.  Empty
input and trailing garbage fail, matching `json.Unmarshal`. -/
def parseJson (s : String) : Option Json :=
  match parseValue (s.length + 1) s.data with
  | some (v, rest) => if skipWs rest = [] then some v else none
  | none => none

/-- `json.Unmarshal(b, &ts)` (main.go:57): parse the bytes, then decode
the document into tasks. -/
def unmarshalTasks (raw : String) : Option Tasks :=
  (parseJson raw).bind decodeTasks

/-! ## Store layer -/

/-- Observable outcome of one `loadTasks` call: the returned value or
propagated error, the attempted backup write (path and bytes; the write
itself is best-effort), and whether the corruption warning was printed
to stderr. -/
structure LoadOutcome where
  result : Except String Tasks
  backup : Option (String × String)
  warned : Bool
deriving Repr

/-- `loadTasks` (main.go:40-66) as a function of the file state at the
resolved `path`: `file = none` means no file exists (`os.Stat` reports
not-exist, first-run semantics), `file = some raw` an existing file
with content `raw`; `readOk = false` models an `os.ReadFile` failure on
an existing file; `nowUnix` is the `time.Now().Unix()` used in the
backup name.  On unparseable content the raw bytes go to
`path + ".broken." + nowUnix`, a warning is printed, and the empty
collection is returned. -/
def loadTasks (path : String) (nowUnix : Int) (file : Option String)
    (readOk : Bool) : LoadOutcome :=
  match file with
  | none => { result := .ok [], backup := none, warned := false }
  | some raw =>
      if readOk then
        match unmarshalTasks raw with
        | some ts => { result := .ok ts, backup := none, warned := false }
        | none =>
            { result := .ok []
              backup := some (path ++ ".broken." ++ toString nowUnix, raw)
              warned := true }
      else { result := .error "read error", backup := none, warned := false }

/-- The document written by `saveTasks` (main.go:68-84);
`json.MarshalIndent` prints it deterministically, so document equality
models byte equality of the saved file. -/
def saveDoc (ts : Tasks) : Json :=
  encodeTasks ts

/-- The collection `loadTasks` produces from an existing, readable store
document: the decoded tasks, or the empty collection on the corruption
path (main.go:56-65). -/
def loadDoc (d : Json) : Tasks :=
  (decodeTasks d).getD []

/-- One `edit` invocation at the store level (main.go:204-228): the
store document is rewritten by `saveTasks` only when `cmdEdit`
succeeds; on the error path the command aborts before `saveTasks`,
leaving the file as it was. -/
def runEditDoc (store : Json) (id : Int) (newTitle : String) :
    Json × Except String Tasks :=
  match cmdEdit (loadDoc store) id newTitle with
  | .ok ts => (saveDoc ts, .ok ts)
  | .error e => (store, .error e)

/-- A sequence of successful `add` commands (main.go:105-123) applied in
order: returns the final collection and the assigned ids in order. -/
def addAll : Tasks → List (String × String) → Tasks × List Int
  | ts, [] => (ts, [])
  | ts, (title, now) :: rest =>
      let (ts2, id) := addTask ts title now
      let (tsf, ids) := addAll ts2 rest
      (tsf, id :: ids)

/-- Spec §3, stated in the spec's own words (for comparison with the
source's `nextID`): "`next_id` assigned to a new task = 1 + max existing
id (or 1 if collection empty)". -/
def specNextID : Tasks → Int
  | [] => 1
  | t :: ts => 1 + (ts.map Task.ID).foldl max t.ID

/-! ## Lemmas -/

lemma foldl_step_eq_max (m x : Int) : (if m < x then x else m) = max m x := by
  rcases lt_or_ge m x with h | h
  · rw [if_pos h, max_eq_right h.le]
  · rw [if_neg (not_lt.mpr h), max_eq_left h]

lemma nextID_eq_foldl_max (ts : Tasks) :
    nextID ts = (ts.map Task.ID).foldl max 0 + 1 := by
  unfold nextID
  rw [List.foldl_map]
  simp only [foldl_step_eq_max]

lemma foldl_max_init_comm (l : List Int) :
    ∀ a b : Int, l.foldl max (max a b) = max a (l.foldl max b) := by
  induction l with
  | nil => intro a b; rfl
  | cons c l ih =>
      intro a b
      simp only [List.foldl_cons]
      rw [max_assoc, ih]

lemma init_le_foldl_max (l : List Int) : ∀ a : Int, a ≤ l.foldl max a := by
  induction l with
  | nil => intro a; exact le_refl a
  | cons c l ih =>
      intro a
      simp only [List.foldl_cons]
      exact le_trans (le_max_left a c) (ih (max a c))

lemma mem_le_foldl_max (l : List Int) :
    ∀ a : Int, ∀ x ∈ l, x ≤ l.foldl max a := by
  induction l with
  | nil => intro a x hx; exact absurd hx (List.not_mem_nil x)
  | cons c l ih =>
      intro a x hx
      simp only [List.foldl_cons]
      rcases List.mem_cons.mp hx with h | h
      · subst h
        exact le_trans (le_max_right a x) (init_le_foldl_max l (max a x))
      · exact ih (max a c) x h

/-- Every id present is strictly below the next assigned id. -/
lemma id_lt_nextID (ts : Tasks) (t : Task) (ht : t ∈ ts) : t.ID < nextID ts := by
  rw [nextID_eq_foldl_max]
  have : t.ID ≤ (ts.map Task.ID).foldl max 0 :=
    mem_le_foldl_max _ 0 t.ID (List.mem_map_of_mem Task.ID ht)
  omega

/-- The source's `nextID` equals `max 1` of the spec's `next_id`: the
two agree except when every id is negative. -/
lemma nextID_eq_max_one_specNextID (ts : Tasks) :
    nextID ts = max 1 (specNextID ts) := by
  cases ts with
  | nil => simp [nextID, specNextID]
  | cons t ts =>
      rw [nextID_eq_foldl_max]
      simp only [List.map_cons, List.foldl_cons, specNextID]
      rw [foldl_max_init_comm]
      rcases le_total (0 : Int) ((ts.map Task.ID).foldl max t.ID) with h | h
      · rw [max_eq_right h, max_eq_right (by omega)]; omega
      · rw [max_eq_left h, max_eq_left (by omega)]; omega

lemma nextID64_eq_wrap64_nextID (ts : Tasks) : nextID64 ts = wrap64 (nextID ts) :=
  rfl

/-- `wrap64` is the identity on the int64 range. -/
lemma wrap64_eq_self (n : Int) (h1 : int64Min ≤ n) (h2 : n ≤ int64Max) :
    wrap64 n = n := by
  unfold wrap64
  unfold int64Min at h1
  unfold int64Max at h2
  omega

lemma foldl_max_le (l : List Int) :
    ∀ a c : Int, a ≤ c → (∀ x ∈ l, x ≤ c) → l.foldl max a ≤ c := by
  induction l with
  | nil => intro a c hac _; exact hac
  | cons b l ih =>
      intro a c hac hl
      simp only [List.foldl_cons]
      exact ih (max a b) c
        (max_le hac (hl b (List.mem_cons_self b l)))
        (fun x hx => hl x (List.mem_cons_of_mem b hx))

lemma findIndexByID_eq_none (ts : Tasks) (id : Int)
    (h : ∀ t ∈ ts, t.ID ≠ id) : findIndexByID ts id = none := by
  induction ts with
  | nil => rfl
  | cons t ts ih =>
      simp only [findIndexByID]
      rw [if_neg (h t (List.mem_cons_self t ts)),
        ih (fun u hu => h u (List.mem_cons_of_mem t hu))]
      rfl

/-- The index returned by `findIndexByID` is in bounds and the task
there carries the sought id. -/
lemma findIndexByID_get? (ts : Tasks) (id : Int) :
    ∀ i, findIndexByID ts id = some i →
      ∃ t, ts[i]? = some t ∧ t.ID = id := by
  induction ts with
  | nil => intro i h; exact absurd h (by simp [findIndexByID])
  | cons t ts ih =>
      intro i h
      simp only [findIndexByID] at h
      by_cases hid : t.ID = id
      · rw [if_pos hid] at h
        obtain rfl : i = 0 := (Option.some.injEq _ _).mp h.symm
        exact ⟨t, by simp, hid⟩
      · rw [if_neg hid] at h
        obtain ⟨j, hj, rfl⟩ := Option.map_eq_some'.mp h
        obtain ⟨u, hu, huid⟩ := ih j hj
        exact ⟨u, by simp [hu], huid⟩

/-- Overwriting the found slot with a task carrying the same id leaves
the search result unchanged. -/
lemma findIndexByID_set (ts : Tasks) (id : Int) (t' : Task) (ht : t'.ID = id) :
    ∀ i, findIndexByID ts id = some i →
      findIndexByID (ts.set i t') id = some i := by
  induction ts with
  | nil => intro i h; exact absurd h (by simp [findIndexByID])
  | cons t ts ih =>
      intro i h
      simp only [findIndexByID] at h
      by_cases hid : t.ID = id
      · rw [if_pos hid] at h
        obtain rfl : i = 0 := (Option.some.injEq _ _).mp h.symm
        simp [List.set, findIndexByID, ht]
      · rw [if_neg hid] at h
        obtain ⟨j, hj, rfl⟩ := Option.map_eq_some'.mp h
        simp only [List.set, findIndexByID]
        rw [if_neg hid, ih j hj]
        rfl

lemma getElem?_set_self (ts : Tasks) (t' : Task) :
    ∀ i, i < ts.length → (ts.set i t')[i]? = some t' := by
  induction ts with
  | nil => intro i h; exact absurd h (by simp)
  | cons t ts ih =>
      intro i h
      cases i with
      | zero => simp
      | succ j =>
          simp only [List.set, List.getElem?_cons_succ]
          exact ih j (by simpa using Nat.lt_of_succ_lt_succ h)

lemma getElem?_lt_length (ts : Tasks) (t : Task) :
    ∀ i, ts[i]? = some t → i < ts.length := by
  induction ts with
  | nil => intro i h; exact absurd h (by simp)
  | cons u ts ih =>
      intro i h
      cases i with
      | zero => simp
      | succ j =>
          simp only [List.getElem?_cons_succ] at h
          simpa using Nat.succ_lt_succ (ih j h)

lemma findIndexByID_append (pre : Tasks) (t : Task) (rest : Tasks) (id : Int)
    (hpre : ∀ u ∈ pre, u.ID ≠ id) (ht : t.ID = id) :
    findIndexByID (pre ++ t :: rest) id = some pre.length := by
  induction pre with
  | nil => simp [findIndexByID, ht]
  | cons a pre ih =>
      simp only [List.cons_append, findIndexByID, List.append_eq]
      rw [if_neg (hpre a (List.mem_cons_self a pre)),
        ih (fun u hu => hpre u (List.mem_cons_of_mem a hu))]
      rfl

lemma getElem?_append_length (pre : Tasks) (t : Task) (rest : Tasks) :
    (pre ++ t :: rest)[pre.length]? = some t := by
  induction pre with
  | nil => simp
  | cons a pre ih =>
      simp only [List.cons_append, List.length_cons, List.getElem?_cons_succ]
      exact ih

lemma set_append_length (pre : Tasks) (t : Task) (rest : Tasks) (t' : Task) :
    (pre ++ t :: rest).set pre.length t' = pre ++ t' :: rest := by
  induction pre with
  | nil => rfl
  | cons a pre ih =>
      simp only [List.cons_append, List.length_cons, List.set, List.append_eq]
      rw [ih]

lemma eraseIdx_append_length (pre : Tasks) (t : Task) (rest : Tasks) :
    (pre ++ t :: rest).eraseIdx pre.length = pre ++ rest := by
  induction pre with
  | nil => rfl
  | cons a pre ih =>
      simp only [List.cons_append, List.length_cons, List.eraseIdx, List.append_eq]
      rw [ih]

lemma decodeTask_encodeTask (t : Task) : decodeTask (encodeTask t) = some t := by
  rcases t with ⟨id, title, d, c, comp⟩
  cases comp <;>
    simp [encodeTask, decodeTask, lookupField, decodeIntField, decodeStrField,
      decodeBoolField, decodeOptStrField]

lemma decodeTaskList_map_encodeTask (ts : Tasks) :
    decodeTaskList (ts.map encodeTask) = some ts := by
  induction ts with
  | nil => rfl
  | cons t ts ih =>
      simp [decodeTaskList, decodeTask_encodeTask, ih]

/-- Unmarshalling the document written for a collection recovers the
collection exactly. -/
lemma decodeTasks_encodeTasks (ts : Tasks) :
    decodeTasks (encodeTasks ts) = some ts := by
  simp only [encodeTasks, decodeTasks]
  exact decodeTaskList_map_encodeTask ts

/-- Appending the freshly assigned task bumps `nextID` by exactly one. -/
lemma nextID_addTask (ts : Tasks) (title now : String) :
    nextID (addTask ts title now).1 = nextID ts + 1 := by
  simp only [addTask]
  rw [nextID_eq_foldl_max, nextID_eq_foldl_max]
  rw [List.map_append, List.foldl_append]
  simp only [List.map_cons, List.map_nil, List.foldl_cons, List.foldl_nil]
  rw [max_eq_right (by omega)]

/-- The ids assigned by a run of adds form the arithmetic progression
starting at `nextID ts`, and the final collection's ids are the starting
ids followed by the assigned ones. -/
lemma addAll_spec :
    ∀ (L : List (String × String)) (ts : Tasks),
      (addAll ts L).2 =
          (List.range L.length).map (fun k : Nat => nextID ts + (k : Int)) ∧
        (addAll ts L).1.map Task.ID = ts.map Task.ID ++ (addAll ts L).2 := by
  intro L
  induction L with
  | nil => intro ts; constructor <;> simp [addAll]
  | cons p L ih =>
      intro ts
      obtain ⟨title, now⟩ := p
      obtain ⟨ih1, ih2⟩ := ih (addTask ts title now).1
      constructor
      · show nextID ts :: (addAll (addTask ts title now).1 L).2 = _
        rw [ih1, nextID_addTask, List.length_cons, List.range_succ_eq_map,
          List.map_cons, List.map_map]
        congr 1
        · simp
        · refine List.map_congr_left ?_
          intro k _
          simp only [Function.comp_apply]
          push_cast
          ring
      · show (addAll (addTask ts title now).1 L).1.map Task.ID =
          ts.map Task.ID ++ nextID ts :: (addAll (addTask ts title now).1 L).2
        rw [ih2]
        simp [addTask]

/-! ## Claim theorems -/

/-- C6: saving a collection, loading the saved store back, and saving
the loaded result writes the very same document — hence the same bytes,
`json.MarshalIndent` being a deterministic printer of documents — as
saving the collection directly: Save(Load(Save(C))) = Save(C). -/
theorem save_load_save_stable (C : Tasks) :
    saveDoc (loadDoc (saveDoc C)) = saveDoc C := by
  simp [loadDoc, saveDoc, decodeTasks_encodeTasks]

/-- C5: loading an existing, readable store file whose content fails to
deserialize does not propagate an error: it returns the empty
collection, records the original raw bytes under the timestamped backup
name beside the original, and prints the corruption warning. -/
theorem loadTasks_corrupt_recovery (path : String) (nowUnix : Int)
    (raw : String) (h : unmarshalTasks raw = none) :
    loadTasks path nowUnix (some raw) true =
      { result := .ok [],
        backup := some (path ++ ".broken." ++ toString nowUnix, raw),
        warned := true } := by
  simp [loadTasks, h]

/-- C5 witness: concrete corrupted content. -/
theorem loadTasks_corrupt_recovery_witness :
    unmarshalTasks "oops" = none ∧
      loadTasks "/home/u/.todo/tasks.json" 1700000000 (some "oops") true =
        { result := .ok [],
          backup := some ("/home/u/.todo/tasks.json" ++ ".broken." ++
            toString (1700000000 : Int), "oops"),
          warned := true } :=
  ⟨rfl, loadTasks_corrupt_recovery "/home/u/.todo/tasks.json" 1700000000 "oops" rfl⟩

/-- C10: a missing store file is first-run — empty collection, no
backup, no warning — while an existing zero-byte file fails to
unmarshal and takes the corruption path: backup of the (empty) bytes,
warning, empty collection. -/
theorem loadTasks_empty_file_is_corrupt (path : String) (nowUnix : Int) :
    loadTasks path nowUnix none true =
        { result := .ok [], backup := none, warned := false } ∧
      loadTasks path nowUnix (some "") true =
        { result := .ok [],
          backup := some (path ++ ".broken." ++ toString nowUnix, ""),
          warned := true } := by
  constructor
  · rfl
  · simp [loadTasks, show unmarshalTasks "" = none from rfl]

/-- C7: an `edit` naming an id absent from the collection fails with the
not-found error, and at the store level the document is returned
unchanged — `saveTasks` is only invoked on the success path. -/
theorem cmdEdit_notFound_no_write (ts : Tasks) (id : Int) (newTitle : String)
    (h : ∀ t ∈ ts, t.ID ≠ id) :
    cmdEdit ts id newTitle = .error ("task " ++ toString id ++ " not found") ∧
      ∀ store : Json, loadDoc store = ts →
        runEditDoc store id newTitle =
          (store, .error ("task " ++ toString id ++ " not found")) := by
  have hf : findIndexByID ts id = none := findIndexByID_eq_none ts id h
  constructor
  · simp [cmdEdit, hf]
  · intro store hs
    simp [runEditDoc, hs, cmdEdit, hf]

/-- C7 witness: `edit 5` against the store holding the single task 1. -/
theorem cmdEdit_notFound_no_write_witness :
    cmdEdit [⟨1, "Buy milk", false, "c", none⟩] 5 "new title" =
        .error ("task " ++ toString (5 : Int) ++ " not found") ∧
      runEditDoc (encodeTasks [⟨1, "Buy milk", false, "c", none⟩]) 5 "new title" =
        (encodeTasks [⟨1, "Buy milk", false, "c", none⟩],
          .error ("task " ++ toString (5 : Int) ++ " not found")) := by
  have h := cmdEdit_notFound_no_write [⟨1, "Buy milk", false, "c", none⟩] 5
    "new title" (by decide)
  exact ⟨h.1, h.2 _ rfl⟩

/-- C4: when the first task carrying the sought id is already done,
  `cmdDo` leaves the collection untouched and signals "already
completed" rather than an error; and marking is idempotent — the state
after applying `cmdDo` twice with the same id equals the state after
one application, so `completed_at` is not re-stamped by the second
call. -/
theorem cmdDo_already_done_noop_idempotent (ts : Tasks) (id : Int)
    (now now2 : String) :
    (∀ (i : Nat) (t : Task), findIndexByID ts id = some i →
        ts[i]? = some t → t.Done = true →
        cmdDo ts id now = (ts, .alreadyDone)) ∧
      (cmdDo (cmdDo ts id now).1 id now2).1 = (cmdDo ts id now).1 := by
  constructor
  · intro i t hf hg hd
    simp [cmdDo, hf, hg, hd]
  · cases hf : findIndexByID ts id with
    | none => simp [cmdDo, hf]
    | some i =>
        cases hg : ts[i]? with
        | none => simp [cmdDo, hf, hg]
        | some t =>
            by_cases hd : t.Done
            · simp [cmdDo, hf, hg, hd]
            · obtain ⟨u, hu, huid⟩ := findIndexByID_get? ts id i hf
              rw [hg] at hu
              have htid : t.ID = id := by
                cases hu
                exact huid
              have hf2 : findIndexByID
                  (ts.set i { t with Done := true, CompletedAt := some now }) id =
                    some i :=
                findIndexByID_set ts id
                  { t with Done := true, CompletedAt := some now } htid i hf
              have hg2 : (ts.set i
                  { t with Done := true, CompletedAt := some now })[i]? =
                    some { t with Done := true, CompletedAt := some now } :=
                getElem?_set_self ts _ i (getElem?_lt_length ts t i hg)
              simp [cmdDo, hf, hg, hd, hf2, hg2]

/-- C4 witness: a second `do 1` on an already-completed task. -/
theorem cmdDo_already_done_noop_idempotent_witness :
    cmdDo [⟨1, "m", true, "c", some "d"⟩] 1 "now" =
        ([⟨1, "m", true, "c", some "d"⟩], .alreadyDone) ∧
      (cmdDo (cmdDo [⟨1, "m", true, "c", some "d"⟩] 1 "now").1 1 "later").1 =
        (cmdDo [⟨1, "m", true, "c", some "d"⟩] 1 "now").1 := by
  have h := cmdDo_already_done_noop_idempotent [⟨1, "m", true, "c", some "d"⟩]
    1 "now" "later"
  exact ⟨h.1 0 ⟨1, "m", true, "c", some "d"⟩ rfl (by simp) rfl, h.2⟩

/-- C8: any sequence of adds starting from the empty collection assigns
a strictly increasing sequence of ids, and the ids of the resulting
collection are pairwise distinct. -/
theorem addAll_ids_increasing_nodup (L : List (String × String)) :
    ((addAll [] L).2).Pairwise (· < ·) ∧
      ((addAll [] L).1.map Task.ID).Nodup := by
  obtain ⟨h1, h2⟩ := addAll_spec L []
  have hpw : ((addAll [] L).2).Pairwise (· < ·) := by
    rw [h1]
    refine List.pairwise_map.mpr ?_
    refine (List.pairwise_lt_range L.length).imp ?_
    intro a b hab
    have hc : (a : Int) < (b : Int) := by exact_mod_cast hab
    exact add_lt_add_left hc _
  refine ⟨hpw, ?_⟩
  rw [h2]
  simp only [List.map_nil, List.nil_append]
  exact hpw.imp (fun h => ne_of_lt h)

set_option maxRecDepth 16384 in
/-- C9: `loadTasks` performs no invariant validation — a stored file
holding two tasks with the same id unmarshals as-is (the exhibited
file carries valid RFC3339 timestamps, so Go's `time.Time` unmarshal
accepts it too; only the duplicate id is at issue) — and on such a
collection `cmdDo`, `cmdEdit` and `cmdRemove` each affect only the
first task (in insertion order) whose id matches, leaving the later
task with that id untouched. -/
theorem load_accepts_dup_ids_ops_first_match :
    unmarshalTasks
        "[\x7b\"id\":1,\"title\":\"a\",\"done\":false,\"created_at\":\"2025-09-21T17:45:00Z\"\x7d,\x7b\"id\":1,\"title\":\"b\",\"done\":false,\"created_at\":\"2025-09-21T17:45:00Z\"\x7d]" =
        some [⟨1, "a", false, "2025-09-21T17:45:00Z", none⟩,
          ⟨1, "b", false, "2025-09-21T17:45:00Z", none⟩] ∧
      ∀ (pre mid post : Tasks) (t1 t2 : Task) (id : Int) (now newTitle : String),
        (∀ u ∈ pre, u.ID ≠ id) → t1.ID = id → t2.ID = id →
          (t1.Done = false →
              cmdDo (pre ++ t1 :: mid ++ t2 :: post) id now =
                (pre ++ { t1 with Done := true, CompletedAt := some now } ::
                  mid ++ t2 :: post, .marked)) ∧
            cmdEdit (pre ++ t1 :: mid ++ t2 :: post) id newTitle =
              .ok (pre ++ { t1 with Title := newTitle } :: mid ++ t2 :: post) ∧
            cmdRemove (pre ++ t1 :: mid ++ t2 :: post) id =
              .ok (pre ++ mid ++ t2 :: post) := by
  constructor
  · rfl
  · intro pre mid post t1 t2 id now newTitle hpre ht1 ht2
    have hf := findIndexByID_append pre t1 (mid ++ t2 :: post) id hpre ht1
    have hg := getElem?_append_length pre t1 (mid ++ t2 :: post)
    refine ⟨?_, ?_, ?_⟩
    · intro hdone
      simp [cmdDo, hf, hg, hdone, set_append_length]
    · simp [cmdEdit, hf, hg, set_append_length]
    · simp [cmdRemove, hf, eraseIdx_append_length]

/-- C9 witness: a collection with tasks 2, 1, 1 — each operation on id 1
touches only the first task with id 1. -/
theorem load_accepts_dup_ids_ops_first_match_witness :
    cmdDo [⟨2, "x", false, "c", none⟩, ⟨1, "a", false, "c", none⟩,
        ⟨1, "b", false, "c", none⟩] 1 "T" =
      ([⟨2, "x", false, "c", none⟩, ⟨1, "a", true, "c", some "T"⟩,
        ⟨1, "b", false, "c", none⟩], .marked) ∧
    cmdEdit [⟨2, "x", false, "c", none⟩, ⟨1, "a", false, "c", none⟩,
        ⟨1, "b", false, "c", none⟩] 1 "nt" =
      .ok [⟨2, "x", false, "c", none⟩, ⟨1, "nt", false, "c", none⟩,
        ⟨1, "b", false, "c", none⟩] ∧
    cmdRemove [⟨2, "x", false, "c", none⟩, ⟨1, "a", false, "c", none⟩,
        ⟨1, "b", false, "c", none⟩] 1 =
      .ok [⟨2, "x", false, "c", none⟩, ⟨1, "b", false, "c", none⟩] := by
  have h := (load_accepts_dup_ids_ops_first_match).2
    [⟨2, "x", false, "c", none⟩] [] [] ⟨1, "a", false, "c", none⟩
    ⟨1, "b", false, "c", none⟩ 1 "T" "nt" (by decide) rfl rfl
  exact ⟨h.1 rfl, h.2.1, h.2.2⟩

/-- C1 counterexample: from the single-task collection with id 1,
`rm 1` empties the store and the following add is assigned id 1 — the
removed id is reused, not 2. -/
theorem remove_then_add_reuses_id_ctex :
    cmdRemove [⟨1, "Buy milk", false, "c", none⟩] 1 = .ok [] ∧
      addTask [] "X" "c2" = ([⟨1, "X", false, "c2", none⟩], 1) ∧
      wrap64 ((addTask [] "X" "c2").2) = 1 ∧
      (addTask [] "X" "c2").2 ≠ 2 := by
  exact ⟨rfl, rfl, by decide, by decide⟩

/-- C1 (amended): whenever some remaining task's id is at least the
removed id and every remaining id is below `int64Max` (so the int64
increment cannot wrap), the id assigned by the next add — which then
coincides with its int64 value — differs from the removed id.  Reuse
does occur when the removed id strictly dominated every remaining id
(the counterexample above), and via int64 wrap-around: removing
`int64Min` from the loadable store with ids int64Min and int64Max and
then adding assigns `wrap64 (int64Max + 1) = int64Min`, reusing the
removed id even though a remaining id exceeds it. -/
theorem remove_then_add_fresh_unless_max_removed (ts ts2 : Tasks) (id : Int)
    (title now : String) (_hrm : cmdRemove ts id = .ok ts2)
    (hdom : ∃ t ∈ ts2, id ≤ t.ID) (hrange : ∀ t ∈ ts2, t.ID < int64Max) :
    (wrap64 ((addTask ts2 title now).2) = (addTask ts2 title now).2 ∧
        (addTask ts2 title now).2 ≠ id ∧
        wrap64 ((addTask ts2 title now).2) ≠ id) ∧
      cmdRemove [⟨int64Min, "a", false, "c", none⟩,
          ⟨int64Max, "b", false, "c", none⟩] int64Min =
        .ok [⟨int64Max, "b", false, "c", none⟩] ∧
      wrap64 ((addTask [⟨int64Max, "b", false, "c", none⟩] title now).2) =
        int64Min := by
  have hmax : int64Max = 9223372036854775807 := rfl
  have hmin : int64Min = -9223372036854775808 := rfl
  obtain ⟨t, ht, hle⟩ := hdom
  have hlt : id < nextID ts2 := lt_of_le_of_lt hle (id_lt_nextID ts2 t ht)
  have hfold := nextID_eq_foldl_max ts2
  have hlb : (0 : Int) ≤ (ts2.map Task.ID).foldl max 0 :=
    init_le_foldl_max _ 0
  have hub : (ts2.map Task.ID).foldl max 0 ≤ int64Max - 1 := by
    refine foldl_max_le _ 0 (int64Max - 1) (by omega) ?_
    intro x hx
    obtain ⟨u, hu, rfl⟩ := List.mem_map.mp hx
    have := hrange u hu
    omega
  have hwrap : wrap64 (nextID ts2) = nextID ts2 :=
    wrap64_eq_self _ (by omega) (by omega)
  refine ⟨⟨hwrap, ne_of_gt hlt, ?_⟩, rfl, ?_⟩
  · show wrap64 (nextID ts2) ≠ id
    rw [hwrap]
    exact ne_of_gt hlt
  · show wrap64 (nextID [⟨int64Max, "b", false, "c", none⟩]) = int64Min
    decide

/-- C1 amended-claim witness: removing id 1 from {1, 2} leaves id 2,
and the next add assigns an id other than 1. -/
theorem remove_then_add_fresh_unless_max_removed_witness :
    cmdRemove [⟨1, "a", false, "c", none⟩, ⟨2, "b", false, "c", none⟩] 1 =
        .ok [⟨2, "b", false, "c", none⟩] ∧
      (∃ t ∈ ([⟨2, "b", false, "c", none⟩] : Tasks), (1 : Int) ≤ t.ID) ∧
      (∀ t ∈ ([⟨2, "b", false, "c", none⟩] : Tasks), t.ID < int64Max) ∧
      (addTask [⟨2, "b", false, "c", none⟩] "t" "n").2 ≠ 1 := by
  refine ⟨rfl, by decide, by decide, ?_⟩
  exact ((remove_then_add_fresh_unless_max_removed
    [⟨1, "a", false, "c", none⟩, ⟨2, "b", false, "c", none⟩]
    [⟨2, "b", false, "c", none⟩] 1 "t" "n" rfl (by decide) (by decide)).1).2.1

/-- C2 counterexample: on a collection whose only id is negative the
assigned id (computed at int64 precision) is 1, not 1 + the maximum id
(= 0): the Go accumulator starts at 0, so negative ids are ignored. -/
theorem nextID_not_one_plus_max_ctex :
    nextID64 [⟨-1, "x", false, "c", none⟩] = 1 ∧
      specNextID [⟨-1, "x", false, "c", none⟩] = 0 ∧ (1 : Int) ≠ 0 := by
  exact ⟨by decide, by decide, by decide⟩

/-- C2 (amended): at int64 precision the assigned id is
`wrap64 (max 1 (1 + maximum id present))`: it equals `1 + maximum id`
whenever some task has a nonnegative id and every id is below
`int64Max` (hence on every collection the program itself builds), it
equals 1 on the empty collection, and it wraps to `int64Min` when the
maximum id is `int64Max`. -/
theorem nextID_max_characterization (ts : Tasks) :
    nextID64 ts = wrap64 (max 1 (specNextID ts)) ∧
      ((∃ t ∈ ts, 0 ≤ t.ID) → (∀ t ∈ ts, t.ID < int64Max) →
        nextID64 ts = specNextID ts) ∧
      nextID64 ([] : Tasks) = 1 ∧
      nextID64 [⟨int64Max, "overflow", false, "c", none⟩] = int64Min := by
  refine ⟨?_, ?_, by decide, by decide⟩
  · rw [nextID64_eq_wrap64_nextID, nextID_eq_max_one_specNextID]
  · rintro ⟨t, ht, h0⟩ hrange
    cases ts with
    | nil => cases ht
    | cons a ts2 =>
        have hmax : int64Max = 9223372036854775807 := rfl
        have hmin : int64Min = -9223372036854775808 := rfl
        have hspec : specNextID (a :: ts2) =
            1 + (ts2.map Task.ID).foldl max a.ID := rfl
        have hub : (ts2.map Task.ID).foldl max a.ID ≤ int64Max - 1 := by
          refine foldl_max_le _ _ _ ?_ ?_
          · have := hrange a (List.mem_cons_self a ts2)
            omega
          · intro x hx
            obtain ⟨u, hu, rfl⟩ := List.mem_map.mp hx
            have := hrange u (List.mem_cons_of_mem a hu)
            omega
        have hlb : (0 : Int) ≤ (ts2.map Task.ID).foldl max a.ID := by
          rcases List.mem_cons.mp ht with rfl | hmem
          · have := init_le_foldl_max (ts2.map Task.ID) t.ID
            omega
          · have := mem_le_foldl_max (ts2.map Task.ID) a.ID t.ID
              (List.mem_map_of_mem Task.ID hmem)
            omega
        rw [nextID64_eq_wrap64_nextID, nextID_eq_max_one_specNextID,
          hspec, max_eq_right (by omega)]
        exact wrap64_eq_self _ (by omega) (by omega)

/-- C2 amended-claim witness. -/
theorem nextID_max_characterization_witness :
    (∃ t ∈ ([⟨1, "a", false, "c", none⟩] : Tasks), 0 ≤ t.ID) ∧
      (∀ t ∈ ([⟨1, "a", false, "c", none⟩] : Tasks), t.ID < int64Max) ∧
      nextID64 [⟨1, "a", false, "c", none⟩] =
        specNextID [⟨1, "a", false, "c", none⟩] :=
  ⟨by decide, by decide,
    (nextID_max_characterization [⟨1, "a", false, "c", none⟩]).2.1
      (by decide) (by decide)⟩

/-- C3 counterexample: `add` invoked with one empty argument joins to an
empty title, yet succeeds and appends a task with empty title instead of
failing with InvalidInput. -/
theorem add_empty_title_accepted_ctex :
    joinSpace [""] = "" ∧
      cmdAdd [""] [] "c" = .ok ([⟨1, "", false, "c", none⟩], 1) :=
  ⟨rfl, rfl⟩

/-- C3 (amended): `cmdAdd` fails (with the usage error, leaving the
collection unchanged) exactly on the empty argument list; with at least
one argument the joined title — which is empty exactly when the single
argument is empty — is appended as a new task with `done = false` and
`created_at = now`, and the assigned id is reported. -/
theorem cmdAdd_characterization (ts : Tasks) (now : String) :
    cmdAdd [] ts now = .error "usage: todo add <task title>" ∧
      ∀ (a : String) (args : List String),
        cmdAdd (a :: args) ts now =
          .ok (ts ++ [{ ID := nextID ts, Title := joinSpace (a :: args),
                        Done := false, CreatedAt := now, CompletedAt := none }],
            nextID ts) := by
  refine ⟨rfl, ?_⟩
  intro a args
  unfold cmdAdd
  rw [if_neg (List.cons_ne_nil a args)]
  rfl

end TodoCli





